import Mathlib

/-!
# Goxy: a shallow embedding of `goxy.go`

The proxy's registry operations, listener loop, request dispatcher, method
handlers and response streamer are modelled as pure functions.  Effects
(channel sends, connection writes, outbound requests) are recorded in an
explicit trace; everything the environment decides (parse results, dial
results, upstream bodies, scheduling of the two relay directions) is an
explicit input.
-/

namespace Goxy

/-! ## Data model -/

/-- A byte of a Go `string` or `[]byte`, kept as its numeric value. -/
abbrev Byte := Nat

/-- The bytes of an ASCII literal. -/
def bytesOf (s : String) : List Byte := s.toList.map Char.toNat

/-- Lifecycle constant `CONNECTED = iota`. -/
def CONNECTED : Int := 0

/-- Lifecycle constant `DISCONNECTED`. -/
def DISCONNECTED : Int := 1

/-- The admission ceiling `CLIENTS_MAX`. -/
def CLIENTS_MAX : Int := 32

/-- The fields of `*http.Request` the program reads. -/
structure Request where
  Method : String
  Host : List Byte
  URL : List Byte
  ContentType : List Byte
  deriving DecidableEq, Repr

/-- The `Client` struct; `conn` is the handle of the accepted socket. -/
structure Client where
  conn : Nat
  req : Option Request
  url : List Byte
  address : String
  state : Int
  deriving DecidableEq, Repr

/-! ## Client registry -/

/-- Go `Proxy.ClientAppend`: `p.clients = append(p.clients, client)`. -/
def ClientAppend (clients : List Client) (client : Client) : List Client :=
  clients ++ [client]

/-- The `range` loop of `Proxy.ClientRemove`: index of the first entry whose
address equals `address`. -/
def firstIndex (address : String) : List Client → Option Nat
  | [] => none
  | c :: cs =>
    if c.address = address then some 0
    else (firstIndex address cs).map (· + 1)

/-- Go `Proxy.ClientRemove`: at the first matching index `i`,
`p.clients[i] = p.clients[len-1]; p.clients = p.clients[:len-1]`. -/
def ClientRemove (clients : List Client) (client : Client) : List Client :=
  match firstIndex client.address clients with
  | none => clients
  | some i =>
    match clients.getLast? with
    | none => clients
    | some last => (clients.set i last).dropLast

/-- The receive branch of the `select` in `Proxy.Counter`. -/
def counterRecv (clients : List Client) (client : Client) : List Client :=
  if client.state = CONNECTED then ClientAppend clients client
  else if client.state = DISCONNECTED then ClientRemove clients client
  else clients

/-- One outcome of the `select` in `Proxy.Counter`: a message was pending on
`p.ch`, or the `default` branch ran. -/
inductive SelectCase where
  | recv (client : Client)
  | dflt
  deriving DecidableEq, Repr

/-- Go `Proxy.Counter` over a finite run of `select` outcomes: the registry at
the end and the sizes sent on `counter`, in order. -/
def Counter : List Client → List SelectCase → List Client × List Nat
  | clients, [] => (clients, [])
  | clients, .recv client :: rest => Counter (counterRecv clients client) rest
  | clients, .dflt :: rest =>
    let r := Counter clients rest
    (r.1, clients.length :: r.2)

/-- No two registry entries share an address. -/
def uniqueByAddress (clients : List Client) : Prop :=
  (clients.map (·.address)).Nodup

instance (clients : List Client) : Decidable (uniqueByAddress clients) := by
  unfold uniqueByAddress; infer_instance

/-! ## Admission-controlled listener -/

/-- What `Proxy.ListenAndServe` does when it is called: `net.Listen` fails
(`os.Exit(1 << 1)`), `Accept` fails (the error is returned), or a connection
is accepted and handed to a new goroutine. -/
inductive ServeResult where
  | listenFailed
  | acceptFailed
  | accepted (conn : Nat)
  deriving DecidableEq, Repr

/-- The inputs of one iteration of the loop in `Proxy.Run`: the size received
from `counter` and what `ListenAndServe` would do if called. -/
structure Tick where
  count : Int
  serve : ServeResult
  deriving DecidableEq, Repr

/-- What one iteration of the loop in `Proxy.Run` did. -/
structure Iteration where
  count : Int
  called : Bool
  accepted : Option Nat
  exit : Option Nat
  deriving DecidableEq, Repr

/-- Go `Proxy.Run` over a finite run of counter reports; the list ends early at
an `os.Exit`. -/
def Run : List Tick → List Iteration
  | [] => []
  | t :: rest =>
    if t.count < CLIENTS_MAX then
      match t.serve with
      | .listenFailed => [⟨t.count, true, none, some (1 <<< 1)⟩]
      | .acceptFailed => [⟨t.count, true, none, some (1 <<< 0)⟩]
      | .accepted conn => ⟨t.count, true, some conn, none⟩ :: Run rest
    else ⟨t.count, false, none, none⟩ :: Run rest

/-! ## Strings -/

/-- The byte `/`. -/
def slash : Byte := 47

/-- The backward scan of `strings.LastIndex(s, sep)` for a one-byte `sep`:
the largest index below `n` that holds `b`, or `-1`. -/
def lastIndexBelow (s : List Byte) (b : Byte) : Nat → Int
  | 0 => -1
  | n + 1 => if s[n]? = some b then (n : Int) else lastIndexBelow s b n

/-- Go `strings.LastIndex(s, sep)` for a one-byte `sep`. -/
def LastIndex (s : List Byte) (b : Byte) : Int :=
  lastIndexBelow s b s.length

/-- The slice expression `s[start:]`; `none` is the run-time panic for a
start index out of range. -/
def sliceFrom (s : List Byte) (start : Int) : Option (List Byte) :=
  if 0 ≤ start ∧ start ≤ (s.length : Int) then some (s.drop start.toNat) else none

/-- The address expression of `Connect` and `manInTheMiddle`:
`client.url[1+strings.LastIndex(client.url, "/"):]`. -/
def targetAddress (url : List Byte) : Option (List Byte) :=
  sliceFrom url (1 + LastIndex url slash)

/-! ## Effects -/

/-- A non-nil `error` returned by `Body.Read`. -/
inductive ReadError where
  | EOF
  | other (code : Nat)
  deriving DecidableEq, Repr

/-- One scripted result of `resp.Body.Read`: the bytes it delivers and its
error (`none` is `nil`). -/
structure ReadResult where
  data : List Byte
  err : Option ReadError
  deriving DecidableEq, Repr

/-- An upstream response body: the results its successive `Read` calls give.
A script that has run out reports `0, io.EOF`. -/
abbrev Body := List ReadResult

/-- An observable effect. -/
inductive Event where
  | setReadDeadline (conn : Nat)
  | send (client : Client)
  | read (n : Nat)
  | write (conn : Nat) (bytes : List Byte)
  | dial (address : List Byte)
  | get (url : List Byte)
  | post (url : List Byte) (contentType : List Byte)
  | handshake (conn : Nat)
  | signal
  | closeBody
  | close (conn : Nat)
  | fatal
  deriving DecidableEq, Repr

/-- How a function ended: it returned, the process exited, or it panicked. -/
inductive Status where
  | returned
  | exited (code : Nat)
  | panicked
  deriving DecidableEq, Repr

/-- The trace of a call and how it ended. -/
structure Outcome where
  trace : List Event
  status : Status
  deriving DecidableEq, Repr

/-- What the environment decides during one connection. -/
structure World where
  /-- Go `http.ReadRequest` on the accepted connection. -/
  request : Option Request
  /-- Go `http.Get(url)`. -/
  httpGet : List Byte → Option Body
  /-- Go `http.Post(url, contentType, body)`. -/
  httpPost : List Byte → List Byte → Option Body
  /-- Go `net.DialTimeout("tcp", address, 2s)`: the upstream connection. -/
  dial : List Byte → Option Nat
  /-- The chunks `io.Copy` moves from the upstream to the client. -/
  downstream : List (List Byte)
  /-- The chunks `io.Copy` moves from the client to the upstream. -/
  upstream : List (List Byte)
  /-- The scheduling of the two `transfer` goroutines. -/
  schedule : List Bool
  /-- The scheduling of what the `transfer` goroutines still have to do when
  `Connect` returns against the rest of `ClientConnect`. -/
  lateSchedule : List Bool
  /-- Whether `tls.LoadX509KeyPair` succeeds. -/
  certOk : Bool
  /-- The handle of `tls.Server(client.conn, tlsConfig)`. -/
  tlsConn : Nat
  /-- Go `http.ReadRequest` on the TLS connection. -/
  tlsRequest : Option Request
  /-- Go `https.Get(url)`. -/
  httpsGet : List Byte → Option Body
  /-- Go `https.Post(url, contentType, body)`. -/
  httpsPost : List Byte → List Byte → Option Body

/-! ## Response streamer -/

/-- Go `resp.Body.Read(buf)` for the scripted result `r`: the count returned and
the buffer afterwards. -/
def readInto (buf : List Byte) (r : ReadResult) : Nat × List Byte :=
  let d := r.data.take buf.length
  (d.length, d ++ buf.drop d.length)

/-- The loop of `responseWrite`, with the buffer as state. -/
def responseWriteLoop (conn : Nat) : List Byte → Body → List Event
  | buf, [] => [.read 0, .write conn (buf.take 0)]
  | buf, r :: rest =>
    let p := readInto buf r
    .read p.1 :: .write conn (p.2.take p.1) ::
      (match r.err with
       | none => responseWriteLoop conn p.2 rest
       | some e => if e = .EOF then [] else [])

/-- Go `responseWrite(conn, resp)`, with `buf = make([]byte, 4096)`. -/
def responseWrite (conn : Nat) (body : Body) : List Event :=
  responseWriteLoop conn (List.replicate 4096 0) body

/-- The byte chunks written to `conn`, in order. -/
def writesTo (conn : Nat) (trace : List Event) : List (List Byte) :=
  trace.filterMap fun e =>
    match e with
    | .write c bytes => if c = conn then some bytes else none
    | _ => none

/-- The results the reads of `responseWrite` obtain: the script up to and
including its first erroring read, or the whole script followed by the
`0, io.EOF` of a body that has run out. -/
def readsSeen : Body → List ReadResult
  | [] => [⟨[], some .EOF⟩]
  | r :: rest => r :: (if r.err.isSome then [] else readsSeen rest)

/-! ## Method handlers -/

/-- The status line written on tunnel establishment. -/
def okLine : List Byte := bytesOf "HTTP/1.1 200 OK\r\n\r\n"

/-- Go `transfer(src, dst, ch)`: `io.Copy(dst, src)`, `ch <- 1`, then the
deferred `dst.Close()` and `src.Close()`. -/
def transfer (src dst : Nat) (chunks : List (List Byte)) : List Event :=
  chunks.map (Event.write dst) ++ [.signal, .close dst, .close src]

/-- A merge of the traces of two goroutines under a schedule. -/
def interleave : List Bool → List Event → List Event → List Event
  | [], xs, ys => xs ++ ys
  | _ :: _, [], ys => ys
  | _ :: _, xs, [] => xs
  | true :: s, x :: xs, ys => x :: interleave s xs ys
  | false :: s, xs, y :: ys => y :: interleave s xs ys

/-- Go `Proxy.Get`. -/
def Get (w : World) (client : Client) : Outcome :=
  match w.httpGet client.url with
  | none => ⟨[.get client.url], .returned⟩
  | some body =>
    ⟨.get client.url :: responseWrite client.conn body ++ [.closeBody], .returned⟩

/-- Go `Proxy.Post`; `client.req` is dereferenced for the content type. -/
def Post (w : World) (client : Client) : Outcome :=
  match client.req with
  | none => ⟨[], .panicked⟩
  | some req =>
    match w.httpPost client.url req.ContentType with
    | none => ⟨[.post client.url req.ContentType], .returned⟩
    | some body =>
      ⟨.post client.url req.ContentType :: responseWrite client.conn body ++ [.closeBody],
        .returned⟩

/-- The merged trace of the two `transfer` goroutines `Connect` starts for the
upstream connection `conn`. -/
def tunnel (w : World) (client : Client) (conn : Nat) : List Event :=
  interleave w.schedule (transfer conn client.conn w.downstream)
    (transfer client.conn conn w.upstream)

/-- The receive loop `for i := 0; i < 2; i++ { <-ch }` of `Connect` over the
merged trace of the goroutines: the events up to and including the `n`-th
signal, and the events the goroutines still have to do after it. -/
def awaitSignals : Nat → List Event → List Event × List Event
  | 0, es => ([], es)
  | _ + 1, [] => ([], [])
  | n + 1, e :: es =>
    let r := awaitSignals (if e = .signal then n else n + 1) es
    (e :: r.1, r.2)

/-- Go `Proxy.Connect`: it returns once both goroutines have signalled. -/
def Connect (w : World) (client : Client) : Outcome :=
  match targetAddress client.url with
  | none => ⟨[], .panicked⟩
  | some address =>
    match w.dial address with
    | none => ⟨[.dial address], .returned⟩
    | some conn =>
      ⟨.dial address :: .write client.conn okLine ::
        (awaitSignals 2 (tunnel w client conn)).1, .returned⟩

/-- The deferred `Close` calls of the `transfer` goroutines that have not yet
run when `Connect` returns. -/
def ConnectPending (w : World) (client : Client) : List Event :=
  match targetAddress client.url with
  | none => []
  | some address =>
    match w.dial address with
    | none => []
    | some conn => (awaitSignals 2 (tunnel w client conn)).2

/-- Go `Proxy.Options`. -/
def Options (_w : World) (client : Client) : Outcome :=
  let allowed := "GET,POST,CONNECT,OPTIONS"
  let reply := "HTTP/1.1 200 OK\r\nAllow: " ++ allowed ++ "\r\n\r\n"
  ⟨[.write client.conn (bytesOf reply)], .returned⟩

/-- The tail of `manInTheMiddle` after its `switch`: `defer resp.Body.Close()`
dereferences `resp`, then the body is streamed to the TLS connection. -/
def mitmRespond (w : World) (sofar : List Event) (resp : Option Body) : Outcome :=
  match resp with
  | none => ⟨sofar ++ [.close w.tlsConn], .panicked⟩
  | some body =>
    ⟨sofar ++ responseWrite w.tlsConn body ++ [.closeBody, .close w.tlsConn], .returned⟩

/-- The function `manInTheMiddle`. -/
def manInTheMiddle (w : World) (client : Client) : Outcome :=
  match targetAddress client.url with
  | none => ⟨[], .panicked⟩
  | some _ =>
    if w.certOk = false then ⟨[.fatal], .exited 1⟩
    else
      let start := [Event.write client.conn okLine, .handshake w.tlsConn]
      match w.tlsRequest with
      | none => ⟨start ++ [.close w.tlsConn], .returned⟩
      | some req =>
        let url := bytesOf "https://" ++ req.Host ++ req.URL
        if req.Method = "GET" then
          match w.httpsGet url with
          | none => ⟨start ++ [.get url, .close w.tlsConn], .returned⟩
          | some body => mitmRespond w (start ++ [.get url]) (some body)
        else if req.Method = "POST" then
          match w.httpsPost url req.ContentType with
          | none => ⟨start ++ [.post url req.ContentType, .close w.tlsConn], .returned⟩
          | some body => mitmRespond w (start ++ [.post url req.ContentType]) (some body)
        else mitmRespond w start none

/-! ## Request dispatcher -/

/-- The handlers the `switch` of `ClientConnect` can call. -/
inductive Handler where
  | Options
  | Get
  | Post
  | Connect
  | manInTheMiddle
  deriving DecidableEq, Repr

/-- The `switch req.Method` of `ClientConnect`. -/
def handlerFor (method : String) : Option Handler :=
  if method = "OPTIONS" then some .Options
  else if method = "GET" then some .Get
  else if method = "POST" then some .Post
  else if method = "CONNECT" then some .Connect
  else if method = "disablethisCONNECT" then some .manInTheMiddle
  else none

/-- The call each case of the `switch` makes. -/
def runHandler (w : World) (client : Client) : Handler → Outcome
  | .Options => Options w client
  | .Get => Get w client
  | .Post => Post w client
  | .Connect => Connect w client
  | .manInTheMiddle => manInTheMiddle w client

/-- Go `Proxy.Request`: on success the request and its URL are recorded on the
client. -/
def parseRequest (w : World) (client : Client) : Option (Request × Client) :=
  match w.request with
  | none => none
  | some req => some (req, { client with url := req.URL, req := some req })

/-- The `switch` of `ClientConnect` and the call it makes. -/
def dispatch (w : World) (client : Client) (method : String) : Outcome :=
  match handlerFor method with
  | none => ⟨[], .returned⟩
  | some h => runHandler w client h

/-- What goroutines started by the handler still have to do when it returns;
only `Connect` starts goroutines. -/
def pendingAfter (w : World) (client : Client) (method : String) : List Event :=
  match handlerFor method with
  | some .Connect => ConnectPending w client
  | _ => []

/-- Go `Proxy.ClientConnect` for the accepted connection `conn` whose remote
address is `remoteAddr`.  The deferred `conn.Close()` runs on return and while
panicking, not on process exit.  What the `transfer` goroutines still have to
do races with the `DISCONNECTED` send and the deferred close. -/
def ClientConnect (w : World) (conn : Nat) (remoteAddr : String) : Outcome :=
  let client : Client :=
    { conn := conn, req := none, url := [], address := remoteAddr, state := CONNECTED }
  match parseRequest w client with
  | none => ⟨[.setReadDeadline conn, .close conn], .returned⟩
  | some (req, client) =>
    let h := dispatch w client req.Method
    match h.status with
    | .returned =>
      ⟨[.setReadDeadline conn, .send client] ++ h.trace ++
        interleave w.lateSchedule (pendingAfter w client req.Method)
          [.send { client with state := DISCONNECTED }, .close conn], .returned⟩
    | .panicked =>
      ⟨[.setReadDeadline conn, .send client] ++ h.trace ++ [.close conn], .panicked⟩
    | .exited code => ⟨[.setReadDeadline conn, .send client] ++ h.trace, .exited code⟩

/-- The lifecycle messages published on `p.ch`, in order. -/
def messages (trace : List Event) : List Client :=
  trace.filterMap fun e =>
    match e with
    | .send client => some client
    | _ => none

/-- The handlers called during a dispatch (none or one). -/
def handlersRun (method : String) : List Handler :=
  (handlerFor method).toList

/-- The trace a streaming copy of the read results `rs` leaves: each read is
followed at once by the write of the bytes it delivered. -/
def streamed (conn : Nat) : List ReadResult → List Event
  | [] => []
  | r :: rs => .read r.data.length :: .write conn r.data :: streamed conn rs

/-- The number of `ch <- 1` signals in a trace. -/
def signals : List Event → Nat
  | [] => 0
  | e :: t => (if e = .signal then 1 else 0) + signals t

/-- Every write in the trace is followed later by a signal. -/
def signalsAfterWrites : List Event → Prop
  | [] => True
  | e :: t => ((∃ c b, e = .write c b) → Event.signal ∈ t) ∧ signalsAfterWrites t

/-! ## Sample inputs -/

/-- A registered client. -/
def peerA : Client := ⟨1, none, [], "10.0.0.1:5000", CONNECTED⟩

/-- A second connection reporting the address of `peerA`. -/
def peerA2 : Client := ⟨2, none, [], "10.0.0.1:5000", CONNECTED⟩

/-- Another registered client. -/
def peerB : Client := ⟨3, none, [], "10.0.0.2:5000", CONNECTED⟩

/-- A third registered client. -/
def peerC : Client := ⟨4, none, [], "10.0.0.3:5000", CONNECTED⟩

/-- The `DISCONNECTED` message of `peerA`. -/
def peerAGone : Client := ⟨1, none, [], "10.0.0.1:5000", DISCONNECTED⟩

/-- A body of three scripted reads, the second reporting the end of data. -/
def sampleBody : Body := [⟨[1, 2], none⟩, ⟨[3], some .EOF⟩, ⟨[9], none⟩]

/-- A world in which the request cannot be parsed and nothing is reachable. -/
def idleWorld : World where
  request := none
  httpGet := fun _ => none
  httpPost := fun _ _ => none
  dial := fun _ => none
  downstream := []
  upstream := []
  schedule := []
  lateSchedule := []
  certOk := true
  tlsConn := 9
  tlsRequest := none
  httpsGet := fun _ => none
  httpsPost := fun _ _ => none

/-- An `OPTIONS` request. -/
def optionsRequest : Request := ⟨"OPTIONS", bytesOf "example.test", bytesOf "*", []⟩

/-- A `CONNECT` request for `example.test:443`. -/
def connectRequest : Request :=
  ⟨"CONNECT", bytesOf "example.test:443", bytesOf "//example.test:443", []⟩

/-- A request carrying the method of the interception case. -/
def sentinelRequest : Request :=
  ⟨"disablethisCONNECT", bytesOf "example.test:443", bytesOf "//example.test:443", []⟩

/-- A `PUT` request read from the TLS connection. -/
def putRequest : Request := ⟨"PUT", bytesOf "example.test", bytesOf "/", []⟩

/-- A world whose client sends `OPTIONS`. -/
def optionsWorld : World := { idleWorld with request := some optionsRequest }

/-- A world whose client sends `CONNECT` to a reachable target. -/
def tunnelWorld : World :=
  { idleWorld with
    request := some connectRequest
    dial := fun _ => some 2
    downstream := [[1], [2]]
    upstream := [[3]]
    schedule := [false, true] }

/-- A world whose client sends `CONNECT` to an unreachable target. -/
def deadWorld : World := { idleWorld with request := some connectRequest }

/-- A world whose client sends the interception method and then `PUT` over
TLS. -/
def mitmWorld : World :=
  { idleWorld with request := some sentinelRequest, tlsRequest := some putRequest }

/-- A world whose client sends the interception method while the certificate
pair cannot be loaded. -/
def fatalWorld : World :=
  { idleWorld with request := some sentinelRequest, certOk := false }

/-- The client as `ClientConnect` holds it once `Request` has succeeded. -/
def registered (conn : Nat) (remoteAddr : String) (req : Request) : Client :=
  ⟨conn, some req, req.URL, remoteAddr, CONNECTED⟩

/-! ## Registry lemmas -/

theorem firstIndex_eq_none {a : String} {cs : List Client} :
    firstIndex a cs = none ↔ ∀ e ∈ cs, e.address ≠ a := by
  induction cs with
  | nil => simp [firstIndex]
  | cons c cs ih =>
    by_cases h : c.address = a
    · simp [firstIndex, h]
    · simp [firstIndex, h, ih]

theorem firstIndex_eq_some {a : String} {cs : List Client} {i : Nat}
    (h : firstIndex a cs = some i) :
    ∃ pre x post, cs = pre ++ x :: post ∧ pre.length = i ∧ x.address = a ∧
      ∀ e ∈ pre, e.address ≠ a := by
  induction cs generalizing i with
  | nil => simp [firstIndex] at h
  | cons c cs ih =>
    by_cases hc : c.address = a
    · simp [firstIndex, hc] at h
      exact ⟨[], c, cs, rfl, by simp [h], hc, by simp⟩
    · simp [firstIndex, hc] at h
      obtain ⟨j, hj, rfl⟩ := h
      obtain ⟨pre, x, post, rfl, rfl, hx, hpre⟩ := ih hj
      refine ⟨c :: pre, x, post, rfl, rfl, hx, ?_⟩
      intro e he
      rcases List.mem_cons.1 he with rfl | he
      · exact hc
      · exact hpre e he

theorem firstIndex_append_match {a : String} (pre : List Client) (x : Client)
    (post : List Client) (hx : x.address = a) (hpre : ∀ e ∈ pre, e.address ≠ a) :
    firstIndex a (pre ++ x :: post) = some pre.length := by
  induction pre with
  | nil => simp [firstIndex, hx]
  | cons c pre ih =>
    have hc : c.address ≠ a := hpre c (by simp)
    have := ih (fun e he => hpre e (by simp [he]))
    simp [firstIndex, hc, this]

/-- Closed form of `ClientRemove` on a registry split at the first match. -/
theorem ClientRemove_split (pre : List Client) (x : Client) (post : List Client)
    (c : Client) (hx : x.address = c.address)
    (hpre : ∀ e ∈ pre, e.address ≠ c.address) :
    ClientRemove (pre ++ x :: post) c =
      pre ++ ((x :: post).getLast (by simp) :: post).dropLast := by
  unfold ClientRemove
  rw [firstIndex_append_match pre x post hx hpre]
  have hl : (pre ++ x :: post).getLast? = some ((x :: post).getLast (by simp)) := by
    rw [List.getLast?_append_of_ne_nil _ (by simp), List.getLast?_eq_getLast]
  simp only [hl]
  rw [List.set_append_right _ _ (le_refl _)]
  simp [List.dropLast_append_of_ne_nil]

theorem ClientRemove_of_mem {cs : List Client} {c : Client}
    (h : ∃ e ∈ cs, e.address = c.address) :
    ∃ pre x post, cs = pre ++ x :: post ∧ x.address = c.address ∧
      (∀ e ∈ pre, e.address ≠ c.address) ∧
      ClientRemove cs c = pre ++ ((x :: post).getLast (by simp) :: post).dropLast := by
  cases hi : firstIndex c.address cs with
  | none =>
    obtain ⟨e, he, hea⟩ := h
    exact absurd hea (firstIndex_eq_none.1 hi e he)
  | some i =>
    obtain ⟨pre, x, post, rfl, -, hx, hpre⟩ := firstIndex_eq_some hi
    exact ⟨pre, x, post, rfl, hx, hpre, ClientRemove_split pre x post c hx hpre⟩

theorem swapped_tail_length (x : Client) (post : List Client) :
    (((x :: post).getLast (by simp)) :: post).dropLast.length = post.length := by
  simp

theorem swapped_tail_perm (x : Client) (post : List Client) :
    ((((x :: post).getLast (by simp)) :: post).dropLast).Perm post := by
  by_cases hp : post = []
  · subst hp; simp
  · rw [List.getLast_cons hp, List.dropLast_cons_of_ne_nil hp]
    have h := List.dropLast_append_getLast hp
    exact (List.perm_append_singleton _ _).symm.trans (by rw [h])

theorem ClientRemove_length_of_mem {cs : List Client} {c : Client}
    (h : ∃ e ∈ cs, e.address = c.address) :
    (ClientRemove cs c).length + 1 = cs.length := by
  obtain ⟨pre, x, post, rfl, -, -, hr⟩ := ClientRemove_of_mem h
  rw [hr, List.length_append, swapped_tail_length]
  simp [Nat.add_assoc]

theorem counterRecv_connected (cs : List Client) (c : Client)
    (hs : c.state = CONNECTED) : counterRecv cs c = cs ++ [c] := by
  simp [counterRecv, hs, ClientAppend]

theorem counterRecv_disconnected (cs : List Client) (c : Client)
    (hs : c.state = DISCONNECTED) : counterRecv cs c = ClientRemove cs c := by
  have h : ¬ c.state = CONNECTED := by rw [hs]; decide
  unfold counterRecv
  rw [if_neg h, if_pos hs]

/-! ## Registry claims -/

/-- C1, as the code has it: a `CONNECTED` message always appends its client,
so the registry grows by exactly one entry whether or not the address is
already present, and the entries stay unique by address exactly when they
were unique and the address was not present before. -/
theorem connected_appends (cs : List Client) (c : Client)
    (hs : c.state = CONNECTED) :
    counterRecv cs c = cs ++ [c] ∧
    (counterRecv cs c).length = cs.length + 1 ∧
    (uniqueByAddress (counterRecv cs c) ↔
      uniqueByAddress cs ∧ ∀ e ∈ cs, e.address ≠ c.address) := by
  rw [counterRecv_connected cs c hs]
  refine ⟨rfl, by simp, ?_⟩
  unfold uniqueByAddress
  rw [List.map_append, List.nodup_append]
  simp [List.Disjoint]

/-- C1 at a concrete input: the amended statement for a registry holding
`peerA` and a `CONNECTED` message carrying the same address. -/
theorem connected_appends_witness :
    peerA2.state = CONNECTED ∧
    counterRecv [peerA] peerA2 = [peerA] ++ [peerA2] ∧
    (counterRecv [peerA] peerA2).length = [peerA].length + 1 ∧
    (uniqueByAddress (counterRecv [peerA] peerA2) ↔
      uniqueByAddress [peerA] ∧ ∀ e ∈ [peerA], e.address ≠ peerA2.address) :=
  ⟨rfl, connected_appends [peerA] peerA2 rfl⟩

/-- C1 fails as stated: the registry `[peerA]` is unique by address and holds
the address of `peerA2`, yet the `CONNECTED` message for `peerA2` makes the
registry one entry longer and no longer unique by address. -/
theorem connected_duplicates :
    (∃ e ∈ [peerA], e.address = peerA2.address) ∧
    peerA2.state = CONNECTED ∧
    uniqueByAddress [peerA] ∧
    (counterRecv [peerA] peerA2).length ≠ [peerA].length ∧
    ¬ uniqueByAddress (counterRecv [peerA] peerA2) := by
  refine ⟨⟨peerA, by simp, rfl⟩, rfl, by decide, by decide, by decide⟩

/-- C2: a `CONNECTED` message for `c` followed by a `DISCONNECTED` message
for the same address leaves the registry with the size it had before, and
that is the size `Counter` reports next. -/
theorem connect_then_disconnect_size (cs : List Client) (c d : Client)
    (hc : c.state = CONNECTED) (hd : d.state = DISCONNECTED)
    (ha : d.address = c.address) :
    (counterRecv (counterRecv cs c) d).length = cs.length ∧
    (Counter cs [.recv c, .recv d, .dflt]).2 = [cs.length] := by
  have hlen : (counterRecv (counterRecv cs c) d).length = cs.length := by
    rw [counterRecv_connected cs c hc, counterRecv_disconnected _ d hd]
    have h := @ClientRemove_length_of_mem (cs ++ [c]) d ⟨c, by simp, ha.symm⟩
    simp only [List.length_append, List.length_singleton] at h
    omega
  exact ⟨hlen, by simp [Counter, hlen]⟩

/-- C2 at a concrete input: `peerA` connects to a registry of two other
clients and disconnects again. -/
theorem connect_then_disconnect_size_witness :
    (counterRecv (counterRecv [peerB, peerC] peerA) peerAGone).length
        = [peerB, peerC].length ∧
    (Counter [peerB, peerC] [.recv peerA, .recv peerAGone, .dflt]).2
        = [[peerB, peerC].length] :=
  connect_then_disconnect_size [peerB, peerC] peerA peerAGone rfl rfl rfl

/-- C9: `ClientRemove` leaves the registry unchanged when no entry has the
address; otherwise it overwrites the first entry with that address by the
last entry and truncates, so the length drops by one, the result is a
permutation of the registry with that one entry erased, and the entries
before the removed position keep their positions. -/
theorem ClientRemove_spec (cs : List Client) (c : Client) :
    ((∀ e ∈ cs, e.address ≠ c.address) → ClientRemove cs c = cs) ∧
    ((∃ e ∈ cs, e.address = c.address) →
      ∃ i x last, cs[i]? = some x ∧ x.address = c.address ∧
        (∀ j y, j < i → cs[j]? = some y → y.address ≠ c.address) ∧
        cs.getLast? = some last ∧
        ClientRemove cs c = (cs.set i last).dropLast ∧
        (ClientRemove cs c).length + 1 = cs.length ∧
        (ClientRemove cs c).Perm (cs.eraseIdx i) ∧
        (ClientRemove cs c).take i = cs.take i) := by
  constructor
  · intro h
    simp [ClientRemove, firstIndex_eq_none.2 h]
  · intro h
    have hlen := ClientRemove_length_of_mem h
    obtain ⟨pre, x, post, rfl, hx, hpre, hr⟩ := ClientRemove_of_mem h
    have hl : (pre ++ x :: post).getLast? = some ((x :: post).getLast (by simp)) := by
      rw [List.getLast?_append_of_ne_nil _ (by simp), List.getLast?_eq_getLast]
    refine ⟨pre.length, x, (x :: post).getLast (by simp),
      by rw [List.getElem?_append_right (le_refl _)]; simp, hx, ?_, hl, ?_,
      hlen, ?_, ?_⟩
    · intro j y hj hy
      rw [List.getElem?_append_left hj] at hy
      exact hpre y (List.getElem?_mem hy)
    · simp only [ClientRemove, firstIndex_append_match pre x post hx hpre, hl]
    · rw [hr, List.eraseIdx_append_of_length_le (le_refl _)]
      simp only [Nat.sub_self, List.eraseIdx_cons_zero]
      exact List.Perm.append_left pre (swapped_tail_perm x post)
    · rw [hr]
      simp

/-- C9 at a concrete input: removing `peerA` from a registry of three. -/
theorem ClientRemove_spec_witness :
    ClientRemove [peerB, peerA, peerC] peerAGone = [peerB, peerC] ∧
    ∃ i x last, [peerB, peerA, peerC][i]? = some x ∧ x.address = peerAGone.address ∧
      (∀ j y, j < i → [peerB, peerA, peerC][j]? = some y →
        y.address ≠ peerAGone.address) ∧
      [peerB, peerA, peerC].getLast? = some last ∧
      ClientRemove [peerB, peerA, peerC] peerAGone
        = ([peerB, peerA, peerC].set i last).dropLast ∧
      (ClientRemove [peerB, peerA, peerC] peerAGone).length + 1
        = [peerB, peerA, peerC].length ∧
      (ClientRemove [peerB, peerA, peerC] peerAGone).Perm
        ([peerB, peerA, peerC].eraseIdx i) ∧
      (ClientRemove [peerB, peerA, peerC] peerAGone).take i
        = [peerB, peerA, peerC].take i :=
  ⟨by decide, (ClientRemove_spec [peerB, peerA, peerC] peerAGone).2
    ⟨peerA, by simp, rfl⟩⟩

/-! ## Listener claims -/

/-- C5: in every iteration of the loop in `Run`, `ListenAndServe` is called
exactly when the size received from `counter` is strictly below 32; at 32 or above
nothing is called and no connection is accepted.  Every report is acted on
by the iteration that receives it. -/
theorem Run_admission (t : Tick) (rest : List Tick) (ticks : List Tick) :
    (∃ it tail, Run (t :: rest) = it :: tail ∧ it.count = t.count ∧
      (it.called = true ↔ t.count < 32)) ∧
    (∀ it ∈ Run ticks, (it.called = true ↔ it.count < 32) ∧
      (32 ≤ it.count → it.called = false ∧ it.accepted = none)) := by
  constructor
  · by_cases h : t.count < CLIENTS_MAX
    · cases hs : t.serve <;>
        simp [Run, h, hs] <;> simpa [CLIENTS_MAX] using h
    · simp only [Run, if_neg h]
      exact ⟨_, _, rfl, rfl, by simpa [CLIENTS_MAX] using h⟩
  · induction ticks with
    | nil => simp [Run]
    | cons t rest ih =>
      intro it hit
      by_cases h : t.count < CLIENTS_MAX
      · have h32 : t.count < 32 := by simpa [CLIENTS_MAX] using h
        cases hs : t.serve <;> simp only [Run, if_pos h, hs] at hit
        · simp only [List.mem_singleton] at hit
          subst hit
          exact ⟨by simpa using h32, fun h' => absurd h32 (by simpa using h')⟩
        · simp only [List.mem_singleton] at hit
          subst hit
          exact ⟨by simpa using h32, fun h' => absurd h32 (by simpa using h')⟩
        · rcases List.mem_cons.1 hit with rfl | hit
          · exact ⟨by simpa using h32, fun h' => absurd h32 (by simpa using h')⟩
          · exact ih it hit
      · have h32 : ¬ t.count < 32 := by simpa [CLIENTS_MAX] using h
        simp only [Run, if_neg h] at hit
        rcases List.mem_cons.1 hit with rfl | hit
        · exact ⟨by simpa using h32, fun _ => ⟨rfl, rfl⟩⟩
        · exact ih it hit

/-- C5 at a concrete input: a report of 31 is followed by an accept, a report
of 32 is not. -/
theorem Run_admission_witness :
    Run [⟨31, .accepted 7⟩, ⟨32, .accepted 8⟩]
      = [⟨31, true, some 7, none⟩, ⟨32, false, none, none⟩] ∧
    (((⟨32, false, none, none⟩ : Iteration).called = true ↔
        (⟨32, false, none, none⟩ : Iteration).count < 32) ∧
      (32 ≤ (⟨32, false, none, none⟩ : Iteration).count →
        (⟨32, false, none, none⟩ : Iteration).called = false ∧
        (⟨32, false, none, none⟩ : Iteration).accepted = none)) :=
  ⟨by decide,
    (Run_admission ⟨31, .accepted 7⟩ [] [⟨31, .accepted 7⟩, ⟨32, .accepted 8⟩]).2
      ⟨32, false, none, none⟩ (by decide)⟩

/-! ## Address extraction -/

theorem lastIndexBelow_absent (s : List Byte) (b : Byte) (h : b ∉ s) (n : Nat) :
    lastIndexBelow s b n = -1 := by
  induction n with
  | zero => rfl
  | succ n ih =>
    have hn : ¬ s[n]? = some b := fun hn => h (List.getElem?_mem hn)
    simp [lastIndexBelow, hn, ih]

theorem lastIndexBelow_last (pre a : List Byte) (b : Byte) (h : b ∉ a) (k : Nat)
    (hk : k ≤ a.length) :
    lastIndexBelow (pre ++ b :: a) b (pre.length + 1 + k) = (pre.length : Int) := by
  induction k with
  | zero =>
    have h0 : (pre ++ b :: a)[pre.length]? = some b := by
      rw [List.getElem?_append_right (le_refl _)]; simp
    simp [lastIndexBelow, h0]
  | succ k ih =>
    have hne : ¬ (pre ++ b :: a)[pre.length + 1 + k]? = some b := by
      rw [List.getElem?_append_right (by omega)]
      have e : pre.length + 1 + k - pre.length = k + 1 := by omega
      rw [e, List.getElem?_cons_succ]
      exact fun hn => h (List.getElem?_mem hn)
    have e2 : pre.length + 1 + (k + 1) = (pre.length + 1 + k) + 1 := by omega
    rw [e2]
    simp only [lastIndexBelow, if_neg hne]
    exact ih (by omega)

theorem LastIndex_absent (u : List Byte) (h : slash ∉ u) : LastIndex u slash = -1 :=
  lastIndexBelow_absent u slash h u.length

theorem LastIndex_last (pre a : List Byte) (h : slash ∉ a) :
    LastIndex (pre ++ slash :: a) slash = (pre.length : Int) := by
  have e : (pre ++ slash :: a).length = pre.length + 1 + a.length := by
    simp only [List.length_append, List.length_cons]; omega
  unfold LastIndex
  rw [e]
  exact lastIndexBelow_last pre a slash h a.length (le_refl _)

theorem targetAddress_absent (u : List Byte) (h : slash ∉ u) :
    targetAddress u = some u := by
  simp [targetAddress, LastIndex_absent u h, sliceFrom]

theorem targetAddress_last (pre a : List Byte) (h : slash ∉ a) :
    targetAddress (pre ++ slash :: a) = some a := by
  have hb : (0 : Int) ≤ 1 + (pre.length : Int) ∧
      1 + (pre.length : Int) ≤ ((pre ++ slash :: a).length : Int) := by
    constructor
    · omega
    · simp only [List.length_append, List.length_cons]; omega
  have ht : (1 + (pre.length : Int)).toNat = pre.length + 1 := by omega
  simp only [targetAddress, LastIndex_last pre a h, sliceFrom, if_pos hb, ht]
  simp

theorem split_at_last (b : Byte) (u : List Byte) (h : b ∈ u) :
    ∃ pre a, u = pre ++ b :: a ∧ b ∉ a := by
  induction u with
  | nil => simp at h
  | cons x t ih =>
    by_cases ht : b ∈ t
    · obtain ⟨pre, a, rfl, ha⟩ := ih ht
      exact ⟨x :: pre, a, rfl, ha⟩
    · rcases List.mem_cons.1 h with rfl | h'
      · exact ⟨[], t, rfl, ht⟩
      · exact absurd h' ht

/-- C10: the slice start `1 + LastIndex(u, "/")` always lies between 0 and
`len(u)`, so the address expression never panics; the address is the suffix
of `u` after its last `/` (all of `u` when it has none) and contains no `/`;
and for `u` equal to `//` followed by a slash-free `hp` it is `hp`. -/
theorem targetAddress_spec (u hp : List Byte) :
    (0 ≤ 1 + LastIndex u slash ∧ 1 + LastIndex u slash ≤ (u.length : Int)) ∧
    (∃ a, targetAddress u = some a ∧ slash ∉ a ∧
      a = u.drop (1 + LastIndex u slash).toNat ∧
      (slash ∉ u → a = u) ∧
      (slash ∈ u → ∃ pre, u = pre ++ slash :: a)) ∧
    (slash ∉ hp → targetAddress (bytesOf "//" ++ hp) = some hp) := by
  refine ⟨?_, ?_, ?_⟩
  · by_cases h : slash ∈ u
    · obtain ⟨pre, a, rfl, ha⟩ := split_at_last slash u h
      rw [LastIndex_last pre a ha]
      simp only [List.length_append, List.length_cons]
      omega
    · rw [LastIndex_absent u h]
      omega
  · by_cases h : slash ∈ u
    · obtain ⟨pre, a, rfl, ha⟩ := split_at_last slash u h
      refine ⟨a, targetAddress_last pre a ha, ha, ?_, fun h' => absurd h h', fun _ => ⟨pre, rfl⟩⟩
      rw [LastIndex_last pre a ha]
      have ht : (1 + (pre.length : Int)).toNat = pre.length + 1 := by omega
      rw [ht]
      simp
    · refine ⟨u, targetAddress_absent u h, h, ?_, fun _ => rfl, fun h' => absurd h' h⟩
      rw [LastIndex_absent u h]
      simp
  · intro h
    exact targetAddress_last [slash] hp h

/-- C10 at a concrete input: the URL `//h:1` gives the address `h:1`. -/
theorem targetAddress_spec_witness :
    slash ∉ bytesOf "h:1" ∧ targetAddress (bytesOf "//" ++ bytesOf "h:1") = some (bytesOf "h:1") :=
  ⟨by decide, (targetAddress_spec [] (bytesOf "h:1")).2.2 (by decide)⟩

/-! ## Response streamer -/

theorem readInto_fits (buf : List Byte) (r : ReadResult)
    (h : r.data.length ≤ buf.length) :
    (readInto buf r).1 = r.data.length ∧
    (readInto buf r).2.take r.data.length = r.data ∧
    (readInto buf r).2.length = buf.length := by
  have ht : r.data.take buf.length = r.data := List.take_of_length_le h
  refine ⟨?_, ?_, ?_⟩
  · simp only [readInto, ht]
  · simp only [readInto, ht]
    simp
  · simp only [readInto, ht, List.length_append, List.length_drop]
    omega

theorem readsSeen_mem (body : Body) :
    ∀ r ∈ readsSeen body, r ∈ body ∨ r = ⟨[], some .EOF⟩ := by
  induction body with
  | nil => intro r hr; simp [readsSeen] at hr; exact Or.inr hr
  | cons q rest ih =>
    intro r hr
    simp only [readsSeen, List.mem_cons] at hr
    rcases hr with rfl | hr
    · exact Or.inl (by simp)
    · by_cases hq : q.err.isSome = true
      · simp [hq] at hr
      · simp only [hq] at hr
        rcases ih r (by simpa using hr) with h | h
        · exact Or.inl (by simp [h])
        · exact Or.inr h

theorem responseWriteLoop_eq (conn : Nat) (body : Body) :
    ∀ buf : List Byte, (∀ r ∈ readsSeen body, r.data.length ≤ buf.length) →
      responseWriteLoop conn buf body = streamed conn (readsSeen body) := by
  induction body with
  | nil => intro buf _; simp [responseWriteLoop, readsSeen, streamed]
  | cons r rest ih =>
    intro buf h
    obtain ⟨h1, h2, h3⟩ := readInto_fits buf r (h r (by simp [readsSeen]))
    cases he : r.err with
    | none =>
      have hrest : ∀ q ∈ readsSeen rest, q.data.length ≤ (readInto buf r).2.length := by
        intro q hq
        rw [h3]
        exact h q (by simp [readsSeen, he, hq])
      simp only [responseWriteLoop, readsSeen, streamed, he, h1, h2, ih _ hrest]
      simp
    | some e =>
      simp only [responseWriteLoop, readsSeen, streamed, he, h1, h2]
      simp

theorem writesTo_streamed (conn : Nat) (rs : List ReadResult) :
    writesTo conn (streamed conn rs) = rs.map (·.data) := by
  induction rs with
  | nil => rfl
  | cons r rs ih =>
    simp only [writesTo] at ih
    simp [streamed, writesTo, List.filterMap_cons, ih]

theorem readsSeen_clean (body : Body) (h : ∀ r ∈ body, r.err = none) :
    readsSeen body = body ++ [⟨[], some .EOF⟩] := by
  induction body with
  | nil => rfl
  | cons r rest ih =>
    have hr : r.err = none := h r (by simp)
    simp [readsSeen, hr, ih (fun q hq => h q (by simp [hq]))]

theorem readsSeen_stop (pre : List ReadResult) (d : List Byte) (e : ReadError)
    (post : List ReadResult) (h : ∀ r ∈ pre, r.err = none) :
    readsSeen (pre ++ ⟨d, some e⟩ :: post) = pre ++ [⟨d, some e⟩] := by
  induction pre with
  | nil => simp [readsSeen]
  | cons r rest ih =>
    have hr : r.err = none := h r (by simp)
    simp [readsSeen, hr, ih (fun q hq => h q (by simp [hq]))]

theorem streamed_congr (conn : Nat) (rs rs' : List ReadResult)
    (h : rs.map (·.data) = rs'.map (·.data)) : streamed conn rs = streamed conn rs' := by
  induction rs generalizing rs' with
  | nil =>
    cases rs' with
    | nil => rfl
    | cons _ _ => simp at h
  | cons r rs ih =>
    cases rs' with
    | nil => simp at h
    | cons q qs =>
      simp only [List.map_cons, List.cons.injEq] at h
      simp [streamed, h.1, ih qs h.2]

/-- C7: for a body whose reads each deliver at most 4096 bytes, the trace of
`responseWrite` is a read followed at once by the write of its bytes, for each
read up to and including the first that reports an error (or the end of data
of a body that has run out); the bytes written are those chunks in order; a
body that ends cleanly is delivered byte for byte; and the reads after the
first error, and which error it is, make no difference. -/
theorem responseWrite_streams (conn : Nat) (body : Body)
    (hsz : ∀ r ∈ body, r.data.length ≤ 4096) :
    responseWrite conn body = streamed conn (readsSeen body) ∧
    writesTo conn (responseWrite conn body) = (readsSeen body).map (·.data) ∧
    ((∀ r ∈ body, r.err = none) →
      (writesTo conn (responseWrite conn body)).flatten
        = (body.map (·.data)).flatten) ∧
    (∀ pre d e post, body = pre ++ ⟨d, some e⟩ :: post → (∀ r ∈ pre, r.err = none) →
      readsSeen body = pre ++ [⟨d, some e⟩] ∧
      (writesTo conn (responseWrite conn body)).flatten
        = (pre.map (·.data)).flatten ++ d ∧
      ∀ e2 post2, responseWrite conn (pre ++ ⟨d, some e2⟩ :: post2)
        = responseWrite conn body) := by
  have hloop : ∀ b : Body, (∀ r ∈ readsSeen b, r.data.length ≤ 4096) →
      responseWrite conn b = streamed conn (readsSeen b) := by
    intro b hb
    exact responseWriteLoop_eq conn b _
      (fun r hr => by rw [List.length_replicate]; exact hb r hr)
  have hseen : ∀ r ∈ readsSeen body, r.data.length ≤ 4096 := by
    intro r hr
    rcases readsSeen_mem body r hr with h | h
    · exact hsz r h
    · subst h; exact Nat.zero_le _
  have h1 := hloop body hseen
  have h2 : writesTo conn (responseWrite conn body) = (readsSeen body).map (·.data) := by
    rw [h1, writesTo_streamed]
  refine ⟨h1, h2, ?_, ?_⟩
  · intro hclean
    rw [h2, readsSeen_clean body hclean]
    simp
  · intro pre d e post hb hpre
    have hs : readsSeen body = pre ++ [⟨d, some e⟩] := by
      rw [hb]; exact readsSeen_stop pre d e post hpre
    refine ⟨hs, by rw [h2, hs]; simp, ?_⟩
    intro e2 post2
    have hs2 := readsSeen_stop pre d e2 post2 hpre
    have hseen2 : ∀ r ∈ readsSeen (pre ++ ⟨d, some e2⟩ :: post2),
        r.data.length ≤ 4096 := by
      intro r hr
      rw [hs2] at hr
      rcases List.mem_append.1 hr with hp | hd
      · exact hsz r (by rw [hb]; simp [hp])
      · simp only [List.mem_singleton] at hd
        subst hd
        exact hsz ⟨d, some e⟩ (by rw [hb]; simp)
    rw [hloop _ hseen2, hs2, h1, hs]
    exact streamed_congr conn _ _ (by simp)

/-- C7 at a concrete input: a body whose second read reports the end of data
is written up to and including that read. -/
theorem responseWrite_streams_witness :
    (∀ r ∈ sampleBody, r.data.length ≤ 4096) ∧
    writesTo 5 (responseWrite 5 sampleBody) = (readsSeen sampleBody).map (·.data) ∧
    readsSeen sampleBody = [⟨[1, 2], none⟩, ⟨[3], some .EOF⟩] :=
  ⟨by decide, (responseWrite_streams 5 sampleBody (by decide)).2.1, by decide⟩

/-! ## Tunnel -/

theorem targetAddress_total (u : List Byte) : ∃ a, targetAddress u = some a := by
  by_cases h : slash ∈ u
  · obtain ⟨pre, a, rfl, ha⟩ := split_at_last slash u h
    exact ⟨a, targetAddress_last pre a ha⟩
  · exact ⟨u, targetAddress_absent u h⟩

theorem filterMap_interleave_left {β : Type} (f : Event → Option β) :
    ∀ (s : List Bool) (xs ys : List Event), ys.filterMap f = [] →
      (interleave s xs ys).filterMap f = xs.filterMap f := by
  intro s
  induction s with
  | nil => intro xs ys h; simp [interleave, h]
  | cons b s ih =>
    intro xs ys h
    cases xs with
    | nil => simp [interleave, h]
    | cons x xs =>
      cases ys with
      | nil => simp [interleave]
      | cons y ys =>
        cases b with
        | true =>
          simp only [interleave, List.filterMap_cons]
          rw [ih xs (y :: ys) h]
        | false =>
          cases hfy : f y with
          | some v => simp [List.filterMap_cons, hfy] at h
          | none =>
            have hys : ys.filterMap f = [] := by
              simpa [List.filterMap_cons, hfy] using h
            have hstep : (interleave (false :: s) (x :: xs) (y :: ys)).filterMap f
                = (interleave s (x :: xs) ys).filterMap f := by
              simp only [interleave, List.filterMap_cons, hfy]
            rw [hstep, ih (x :: xs) ys hys]

theorem writesTo_transfer (c src dst : Nat) (chunks : List (List Byte)) :
    writesTo c (transfer src dst chunks) = if dst = c then chunks else [] := by
  induction chunks with
  | nil => simp [writesTo, transfer]
  | cons d ds ih =>
    simp only [writesTo, transfer] at ih
    by_cases h : dst = c
    · simp only [writesTo, transfer, List.map_cons, List.cons_append,
        List.filterMap_cons, h, if_true] at ih ⊢
      rw [ih]
    · simp only [writesTo, transfer, List.map_cons, List.cons_append,
        List.filterMap_cons, h, if_false] at ih ⊢
      rw [ih]

theorem filterMap_interleave_right {β : Type} (f : Event → Option β) :
    ∀ (s : List Bool) (xs ys : List Event), xs.filterMap f = [] →
      (interleave s xs ys).filterMap f = ys.filterMap f := by
  intro s
  induction s with
  | nil => intro xs ys h; simp [interleave, h]
  | cons b s ih =>
    intro xs ys h
    cases xs with
    | nil => simp [interleave]
    | cons x xs =>
      cases ys with
      | nil => simp [interleave, h]
      | cons y ys =>
        cases hfx : f x with
        | some v => simp [List.filterMap_cons, hfx] at h
        | none =>
          have hxs : xs.filterMap f = [] := by
            simpa [List.filterMap_cons, hfx] using h
          cases b with
          | true =>
            have hstep : (interleave (true :: s) (x :: xs) (y :: ys)).filterMap f
                = (interleave s xs (y :: ys)).filterMap f := by
              simp only [interleave, List.filterMap_cons, hfx]
            rw [hstep, ih xs (y :: ys) hxs]
          | false =>
            simp only [interleave, List.filterMap_cons]
            rw [ih (x :: xs) ys h]

theorem mem_interleave (e : Event) :
    ∀ (s : List Bool) (xs ys : List Event),
      e ∈ interleave s xs ys ↔ e ∈ xs ∨ e ∈ ys := by
  intro s
  induction s with
  | nil => intro xs ys; simp [interleave]
  | cons b s ih =>
    intro xs ys
    cases xs with
    | nil => simp [interleave]
    | cons x xs =>
      cases ys with
      | nil => simp [interleave]
      | cons y ys =>
        cases b with
        | true =>
          simp only [interleave, List.mem_cons, ih]
          tauto
        | false =>
          simp only [interleave, List.mem_cons, ih]
          tauto

theorem signals_cons (e : Event) (t : List Event) :
    signals (e :: t) = (if e = .signal then 1 else 0) + signals t := rfl

theorem signals_append (xs ys : List Event) :
    signals (xs ++ ys) = signals xs + signals ys := by
  induction xs with
  | nil => simp [signals]
  | cons x xs ih => rw [List.cons_append, signals_cons, signals_cons, ih]; omega

theorem signals_interleave :
    ∀ (s : List Bool) (xs ys : List Event),
      signals (interleave s xs ys) = signals xs + signals ys := by
  intro s
  induction s with
  | nil => intro xs ys; simp [interleave, signals_append]
  | cons b s ih =>
    intro xs ys
    cases xs with
    | nil => simp [interleave, signals]
    | cons x xs =>
      cases ys with
      | nil => simp [interleave, signals]
      | cons y ys =>
        cases b with
        | true =>
          simp only [interleave, signals, ih]
          omega
        | false =>
          simp only [interleave, signals, ih]
          omega

theorem signals_transfer (src dst : Nat) (chunks : List (List Byte)) :
    signals (transfer src dst chunks) = 1 := by
  induction chunks with
  | nil => simp [transfer, signals]
  | cons d ds ih =>
    simp only [transfer] at ih
    simp only [transfer, List.map_cons, List.cons_append]
    rw [signals_cons, ih]
    simp

theorem signalsAfterWrites_append (xs ys : List Event)
    (hx : signalsAfterWrites xs) (hy : signalsAfterWrites ys) :
    signalsAfterWrites (xs ++ ys) := by
  induction xs with
  | nil => simpa using hy
  | cons x xs ih =>
    refine ⟨fun hw => ?_, ih hx.2⟩
    exact List.mem_append.2 (Or.inl (hx.1 hw))

theorem signalsAfterWrites_interleave :
    ∀ (s : List Bool) (xs ys : List Event),
      signalsAfterWrites xs → signalsAfterWrites ys →
      signalsAfterWrites (interleave s xs ys) := by
  intro s
  induction s with
  | nil =>
    intro xs ys hx hy
    simpa [interleave] using signalsAfterWrites_append xs ys hx hy
  | cons b s ih =>
    intro xs ys hx hy
    cases xs with
    | nil => simpa [interleave] using hy
    | cons x xs =>
      cases ys with
      | nil => simpa [interleave] using hx
      | cons y ys =>
        cases b with
        | true =>
          simp only [interleave]
          exact ⟨fun hw => (mem_interleave _ s xs (y :: ys)).2 (Or.inl (hx.1 hw)),
            ih xs (y :: ys) hx.2 hy⟩
        | false =>
          simp only [interleave]
          exact ⟨fun hw => (mem_interleave _ s (x :: xs) ys).2 (Or.inr (hy.1 hw)),
            ih (x :: xs) ys hx hy.2⟩

theorem signalsAfterWrites_transfer (src dst : Nat) (chunks : List (List Byte)) :
    signalsAfterWrites (transfer src dst chunks) := by
  induction chunks with
  | nil => simp [transfer, signalsAfterWrites]
  | cons d ds ih =>
    refine ⟨fun _ => ?_, ih⟩
    simp [transfer]

theorem awaitSignals_append (es : List Event) :
    ∀ n, (awaitSignals n es).1 ++ (awaitSignals n es).2 = es := by
  induction es with
  | nil => intro n; cases n <;> simp [awaitSignals]
  | cons e es ih =>
    intro n
    cases n with
    | zero => simp [awaitSignals]
    | succ n =>
      simp only [awaitSignals, List.cons_append]
      rw [ih]

theorem writesTo_of_no_signal (c : Nat) (es : List Event)
    (h : signalsAfterWrites es) (hs : signals es = 0) : writesTo c es = [] := by
  induction es with
  | nil => rfl
  | cons e es ih =>
    have hes : signals es = 0 := by
      simp only [signals] at hs; omega
    have hno : Event.signal ∉ es := by
      intro hm
      have : ∀ l : List Event, Event.signal ∈ l → 0 < signals l := by
        intro l
        induction l with
        | nil => intro hl; simp at hl
        | cons a l ihl =>
          intro hl
          by_cases ha : a = Event.signal
          · simp [signals, ha]
          · rcases List.mem_cons.1 hl with h1 | h1
            · exact absurd h1.symm ha
            · have := ihl h1
              simp only [signals]; omega
      have := this es hm
      omega
    have ih2 := ih h.2 hes
    simp only [writesTo] at ih2 ⊢
    cases e with
    | write c2 b => exact absurd (h.1 ⟨c2, b, rfl⟩) hno
    | _ => simpa [List.filterMap_cons] using ih2

theorem writesTo_pending (c : Nat) (es : List Event) :
    ∀ n, signalsAfterWrites es → signals es = n →
      writesTo c (awaitSignals n es).2 = [] := by
  induction es with
  | nil => intro n _ _; cases n <;> simp [awaitSignals, writesTo]
  | cons e es ih =>
    intro n h hs
    cases n with
    | zero =>
      simp only [awaitSignals]
      exact writesTo_of_no_signal c _ h hs
    | succ n =>
      simp only [awaitSignals]
      by_cases he : e = Event.signal
      · simp only [he, if_true]
        apply ih n h.2
        simp only [signals, he, if_true] at hs
        omega
      · simp only [he, if_false]
        apply ih (n + 1) h.2
        simp only [signals, he, if_false] at hs
        omega

theorem writesTo_append (c : Nat) (xs ys : List Event) :
    writesTo c (xs ++ ys) = writesTo c xs ++ writesTo c ys := by
  simp [writesTo]

theorem writesTo_tunnel_awaited (w : World) (client : Client) (up c : Nat) :
    writesTo c (awaitSignals 2 (tunnel w client up)).1 = writesTo c (tunnel w client up) := by
  have hq : signalsAfterWrites (tunnel w client up) :=
    signalsAfterWrites_interleave _ _ _ (signalsAfterWrites_transfer _ _ _)
      (signalsAfterWrites_transfer _ _ _)
  have hn : signals (tunnel w client up) = 2 := by
    simp only [tunnel, signals_interleave, signals_transfer]
  have hp := writesTo_pending c (tunnel w client up) 2 hq hn
  have ha := congrArg (writesTo c) (awaitSignals_append (tunnel w client up) 2)
  rw [writesTo_append, hp, List.append_nil] at ha
  exact ha

/-- C6: when the dial fails `Connect` writes nothing to any connection; when
it succeeds the first write to the client is the literal
`HTTP/1.1 200 OK\r\n\r\n`, ahead of every relayed chunk. -/
theorem Connect_reply (w : World) (client : Client) :
    okLine = [72, 84, 84, 80, 47, 49, 46, 49, 32, 50, 48, 48, 32, 79, 75, 13, 10, 13, 10] ∧
    ∃ address, targetAddress client.url = some address ∧
      (w.dial address = none →
        Connect w client = ⟨[.dial address], .returned⟩ ∧
        ∀ c, writesTo c (Connect w client).trace = []) ∧
      (∀ up, w.dial address = some up →
        (Connect w client).status = .returned ∧
        (∃ relay, (Connect w client).trace
          = .dial address :: .write client.conn okLine :: relay) ∧
        (∃ rest, writesTo client.conn (Connect w client).trace = okLine :: rest) ∧
        (up ≠ client.conn →
          writesTo client.conn (Connect w client).trace = okLine :: w.downstream)) := by
  refine ⟨by decide, ?_⟩
  obtain ⟨address, ha⟩ := targetAddress_total client.url
  refine ⟨address, ha, ?_, ?_⟩
  · intro hd
    have hc : Connect w client = ⟨[.dial address], .returned⟩ := by
      simp [Connect, ha, hd]
    refine ⟨hc, fun c => ?_⟩
    rw [hc]
    simp [writesTo]
  · intro up hd
    have hc : Connect w client = ⟨.dial address :: .write client.conn okLine ::
        (awaitSignals 2 (tunnel w client up)).1, .returned⟩ := by
      simp [Connect, ha, hd]
    rw [hc]
    have hcons : writesTo client.conn (.dial address :: .write client.conn okLine ::
        (awaitSignals 2 (tunnel w client up)).1)
          = okLine :: writesTo client.conn (tunnel w client up) := by
      rw [← writesTo_tunnel_awaited]
      simp [writesTo, List.filterMap_cons]
    refine ⟨rfl, ⟨_, rfl⟩, ⟨_, hcons⟩, ?_⟩
    intro hne
    have hr : writesTo client.conn (transfer client.conn up w.upstream) = [] := by
      rw [writesTo_transfer, if_neg hne]
    have hl : writesTo client.conn (transfer up client.conn w.downstream)
        = w.downstream := by
      rw [writesTo_transfer, if_pos rfl]
    have hi := filterMap_interleave_left _ w.schedule
      (transfer up client.conn w.downstream) (transfer client.conn up w.upstream) hr
    rw [hcons]
    simp only [writesTo, tunnel] at hl hi ⊢
    rw [hi, hl]

/-- C6 at concrete inputs: an unreachable target leaves the client connection
unwritten, a reachable one is answered with the status line first. -/
theorem Connect_reply_witness :
    (deadWorld.dial (bytesOf "example.test:443") = none ∧
      writesTo 1 (Connect deadWorld (registered 1 "10.0.0.1:5000" connectRequest)).trace
        = []) ∧
    (tunnelWorld.dial (bytesOf "example.test:443") = some 2 ∧
      writesTo 1 (Connect tunnelWorld (registered 1 "10.0.0.1:5000" connectRequest)).trace
        = okLine :: [[1], [2]]) := by
  have ha : targetAddress (registered 1 "10.0.0.1:5000" connectRequest).url
      = some (bytesOf "example.test:443") :=
    targetAddress_last [slash] (bytesOf "example.test:443") (by decide)
  obtain ⟨-, a, h1, h2, -⟩ :=
    Connect_reply deadWorld (registered 1 "10.0.0.1:5000" connectRequest)
  obtain ⟨-, b, k1, -, k3⟩ :=
    Connect_reply tunnelWorld (registered 1 "10.0.0.1:5000" connectRequest)
  have ea : a = bytesOf "example.test:443" := Option.some.inj (h1.symm.trans ha)
  have eb : b = bytesOf "example.test:443" := Option.some.inj (k1.symm.trans ha)
  subst ea
  subst eb
  exact ⟨⟨rfl, (h2 rfl).2 1⟩, ⟨rfl, (k3 2 rfl).2.2.2 (by decide)⟩⟩

/-! ## TLS interceptor -/

theorem manInTheMiddle_other_method (w : World) (client : Client) (req : Request)
    (hc : w.certOk = true) (hr : w.tlsRequest = some req)
    (hg : req.Method ≠ "GET") (hp : req.Method ≠ "POST") :
    manInTheMiddle w client =
      ⟨[.write client.conn okLine, .handshake w.tlsConn, .close w.tlsConn], .panicked⟩ := by
  obtain ⟨a, ha⟩ := targetAddress_total client.url
  simp [manInTheMiddle, ha, hc, hr, hg, hp, mitmRespond]

/-- C8, the code at the failing input: with the certificate loaded and a `PUT`
request read from the TLS connection, `manInTheMiddle` issues no outbound
request and then panics on the absent response instead of returning; the
enclosing `ClientConnect` has published `CONNECTED` and never publishes
`DISCONNECTED`. -/
theorem manInTheMiddle_put_panics :
    manInTheMiddle mitmWorld (registered 1 "10.0.0.1:5000" sentinelRequest)
      = ⟨[.write 1 okLine, .handshake 9, .close 9], .panicked⟩ ∧
    (ClientConnect mitmWorld 1 "10.0.0.1:5000").status = .panicked ∧
    messages (ClientConnect mitmWorld 1 "10.0.0.1:5000").trace
      = [registered 1 "10.0.0.1:5000" sentinelRequest] := by
  have h : manInTheMiddle mitmWorld (registered 1 "10.0.0.1:5000" sentinelRequest)
      = ⟨[.write 1 okLine, .handshake 9, .close 9], .panicked⟩ :=
    manInTheMiddle_other_method mitmWorld _ putRequest rfl rfl (by decide) (by decide)
  have hd : dispatch mitmWorld (registered 1 "10.0.0.1:5000" sentinelRequest)
      sentinelRequest.Method
      = ⟨[.write 1 okLine, .handshake 9, .close 9], .panicked⟩ := by
    rw [← h]
    simp [dispatch, handlerFor, runHandler, sentinelRequest]
  have hc : ClientConnect mitmWorld 1 "10.0.0.1:5000"
      = ⟨[.setReadDeadline 1, .send (registered 1 "10.0.0.1:5000" sentinelRequest),
          .write 1 okLine, .handshake 9, .close 9, .close 1], .panicked⟩ := by
    have hp : parseRequest mitmWorld ⟨1, none, [], "10.0.0.1:5000", CONNECTED⟩
        = some (sentinelRequest, registered 1 "10.0.0.1:5000" sentinelRequest) := rfl
    simp only [ClientConnect, hp, hd]
    rfl
  refine ⟨h, by rw [hc], ?_⟩
  rw [hc]
  simp [messages, List.filterMap_cons]

/-! ## Request dispatcher -/

theorem messages_append (xs ys : List Event) :
    messages (xs ++ ys) = messages xs ++ messages ys := by
  simp [messages]

theorem messages_responseWriteLoop (conn : Nat) (body : Body) :
    ∀ buf, messages (responseWriteLoop conn buf body) = [] := by
  induction body with
  | nil => intro buf; simp [responseWriteLoop, messages, List.filterMap_cons]
  | cons r rest ih =>
    intro buf
    have h := ih (readInto buf r).2
    simp only [messages] at h
    cases he : r.err with
    | none => simp [responseWriteLoop, messages, List.filterMap_cons, he, h]
    | some e => simp [responseWriteLoop, messages, List.filterMap_cons, he]

theorem messages_responseWrite (conn : Nat) (body : Body) :
    messages (responseWrite conn body) = [] :=
  messages_responseWriteLoop conn body _

theorem messages_transfer (src dst : Nat) (chunks : List (List Byte)) :
    messages (transfer src dst chunks) = [] := by
  induction chunks with
  | nil => simp [messages, transfer, List.filterMap_cons]
  | cons d ds ih =>
    simp only [messages, transfer] at ih
    simp only [messages, transfer, List.map_cons, List.cons_append, List.filterMap_cons]
    exact ih

theorem messages_Options (w : World) (client : Client) :
    messages (Options w client).trace = [] := by
  simp [Options, messages, List.filterMap_cons]

theorem messages_Get (w : World) (client : Client) :
    messages (Get w client).trace = [] := by
  unfold Get
  cases w.httpGet client.url with
  | none => simp [messages, List.filterMap_cons]
  | some body =>
    have h := messages_responseWrite client.conn body
    simp only [messages] at h
    simp [messages, List.filterMap_cons, h]

theorem messages_Post (w : World) (client : Client) :
    messages (Post w client).trace = [] := by
  unfold Post
  cases hq : client.req with
  | none => simp [messages]
  | some req =>
    cases hp : w.httpPost client.url req.ContentType with
    | none => simp [hp, messages, List.filterMap_cons]
    | some body =>
      have h := messages_responseWrite client.conn body
      simp only [messages] at h
      simp [hp, messages, List.filterMap_cons, h]

theorem messages_tunnel (w : World) (client : Client) (conn : Nat) :
    messages (tunnel w client conn) = [] := by
  have h1 := messages_transfer conn client.conn w.downstream
  have h2 := messages_transfer client.conn conn w.upstream
  simp only [messages] at h1 h2
  have h := filterMap_interleave_left _ w.schedule
    (transfer conn client.conn w.downstream) (transfer client.conn conn w.upstream) h2
  simp only [messages, tunnel]
  rw [h, h1]

theorem messages_awaited (w : World) (client : Client) (conn n : Nat) :
    messages (awaitSignals n (tunnel w client conn)).1 = [] ∧
    messages (awaitSignals n (tunnel w client conn)).2 = [] := by
  have h := congrArg messages (awaitSignals_append (tunnel w client conn) n)
  rw [messages_append, messages_tunnel] at h
  exact List.append_eq_nil.1 h

theorem messages_Connect (w : World) (client : Client) :
    messages (Connect w client).trace = [] := by
  unfold Connect
  cases ha : targetAddress client.url with
  | none => simp [messages]
  | some address =>
    cases hd : w.dial address with
    | none => simp [hd, messages, List.filterMap_cons]
    | some conn =>
      have h := (messages_awaited w client conn 2).1
      simp only [messages] at h
      simp only [hd, messages, List.filterMap_cons]
      exact h

theorem messages_pendingAfter (w : World) (client : Client) (method : String) :
    messages (pendingAfter w client method) = [] := by
  unfold pendingAfter
  split
  · unfold ConnectPending
    split
    · rfl
    · split
      · rfl
      · exact (messages_awaited w client _ 2).2
  · rfl

theorem messages_mitmRespond (w : World) (sofar : List Event) (resp : Option Body)
    (h : messages sofar = []) : messages (mitmRespond w sofar resp).trace = [] := by
  cases resp with
  | none =>
    simp only [mitmRespond, messages_append, h]
    simp [messages, List.filterMap_cons]
  | some body =>
    simp only [mitmRespond, messages_append, h, messages_responseWrite]
    simp [messages, List.filterMap_cons]

theorem messages_manInTheMiddle (w : World) (client : Client) :
    messages (manInTheMiddle w client).trace = [] := by
  unfold manInTheMiddle
  split
  · simp [messages]
  · split
    · simp [messages, List.filterMap_cons]
    · split
      · simp [messages, List.filterMap_cons]
      · simp only []
        split
        · split
          · simp [messages, List.filterMap_cons]
          · apply messages_mitmRespond
            simp [messages, List.filterMap_cons]
        · split
          · split
            · simp [messages, List.filterMap_cons]
            · apply messages_mitmRespond
              simp [messages, List.filterMap_cons]
          · apply messages_mitmRespond
            simp [messages, List.filterMap_cons]

theorem messages_dispatch (w : World) (client : Client) (method : String) :
    messages (dispatch w client method).trace = [] := by
  unfold dispatch
  cases handlerFor method with
  | none => simp [messages]
  | some h =>
    cases h
    · exact messages_Options w client
    · exact messages_Get w client
    · exact messages_Post w client
    · exact messages_Connect w client
    · exact messages_manInTheMiddle w client

theorem dispatch_returns (w : World) (client : Client) (method : String) (req : Request)
    (hreq : client.req = some req) (hm : method ≠ "disablethisCONNECT") :
    (dispatch w client method).status = .returned := by
  unfold dispatch handlerFor
  split_ifs
  · simp [runHandler, Options]
  · simp only [runHandler, Get]
    cases w.httpGet client.url <;> rfl
  · simp only [runHandler, Post, hreq]
    cases w.httpPost client.url req.ContentType <;> rfl
  · obtain ⟨a, ha⟩ := targetAddress_total client.url
    simp only [runHandler, Connect, ha]
    cases w.dial a <;> rfl
  · rfl

/-- C3, as the code has it: when request parsing fails `ClientConnect`
publishes nothing and runs no handler; when it succeeds the `CONNECTED`
message is sent before the handler runs; when the handler returns, which it
does for every method other than the interception method, the `DISCONNECTED`
message is sent after it and these two are the only messages, both carrying
the remote address; when the handler ends the process, `CONNECTED` is the
only message, and the interception handler ends the process whenever the
certificate pair cannot be loaded. -/
theorem ClientConnect_lifecycle (w : World) (conn : Nat) (remoteAddr : String) :
    (w.request = none →
      ClientConnect w conn remoteAddr
        = ⟨[.setReadDeadline conn, .close conn], .returned⟩ ∧
      messages (ClientConnect w conn remoteAddr).trace = []) ∧
    (∀ req, w.request = some req →
      messages (dispatch w (registered conn remoteAddr req) req.Method).trace = [] ∧
      (∃ rest, (ClientConnect w conn remoteAddr).trace
        = [.setReadDeadline conn, .send (registered conn remoteAddr req)] ++
          (dispatch w (registered conn remoteAddr req) req.Method).trace ++ rest) ∧
      (req.Method ≠ "disablethisCONNECT" →
        (dispatch w (registered conn remoteAddr req) req.Method).status = .returned) ∧
      ((dispatch w (registered conn remoteAddr req) req.Method).status = .returned →
        ClientConnect w conn remoteAddr =
          ⟨[.setReadDeadline conn, .send (registered conn remoteAddr req)] ++
            (dispatch w (registered conn remoteAddr req) req.Method).trace ++
            interleave w.lateSchedule
              (pendingAfter w (registered conn remoteAddr req) req.Method)
              [.send { registered conn remoteAddr req with state := DISCONNECTED },
                .close conn], .returned⟩ ∧
        messages (ClientConnect w conn remoteAddr).trace
          = [⟨conn, some req, req.URL, remoteAddr, CONNECTED⟩,
             ⟨conn, some req, req.URL, remoteAddr, DISCONNECTED⟩]) ∧
      (∀ code, (dispatch w (registered conn remoteAddr req) req.Method).status
          = .exited code →
        (ClientConnect w conn remoteAddr).status = .exited code ∧
        messages (ClientConnect w conn remoteAddr).trace
          = [⟨conn, some req, req.URL, remoteAddr, CONNECTED⟩]) ∧
      (req.Method = "disablethisCONNECT" → w.certOk = false →
        (dispatch w (registered conn remoteAddr req) req.Method).status = .exited 1)) := by
  constructor
  · intro h
    have hc : ClientConnect w conn remoteAddr
        = ⟨[.setReadDeadline conn, .close conn], .returned⟩ := by
      simp [ClientConnect, parseRequest, h]
    refine ⟨hc, ?_⟩
    rw [hc]
    simp [messages, List.filterMap_cons]
  · intro req h
    have hp : parseRequest w ⟨conn, none, [], remoteAddr, CONNECTED⟩
        = some (req, registered conn remoteAddr req) := by
      simp [parseRequest, h, registered]
    have hd := messages_dispatch w (registered conn remoteAddr req) req.Method
    have hsend : ∀ c : Client, messages [Event.send c] = [c] := by
      intro c; simp [messages, List.filterMap_cons]
    have hhead : messages [Event.setReadDeadline conn,
        .send (registered conn remoteAddr req)] = [registered conn remoteAddr req] := by
      simp [messages, List.filterMap_cons]
    refine ⟨hd, ?_, fun hm => dispatch_returns w _ req.Method req rfl hm, ?_, ?_, ?_⟩
    · cases hs : (dispatch w (registered conn remoteAddr req) req.Method).status with
      | returned =>
        exact ⟨interleave w.lateSchedule
          (pendingAfter w (registered conn remoteAddr req) req.Method)
          [.send { registered conn remoteAddr req with state := DISCONNECTED },
            .close conn], by simp only [ClientConnect, hp, hs]⟩
      | panicked => exact ⟨[.close conn], by simp only [ClientConnect, hp, hs]⟩
      | exited code =>
        exact ⟨[], by simp only [ClientConnect, hp, hs, List.append_nil]⟩
    · intro hs
      have hc : ClientConnect w conn remoteAddr =
          ⟨[.setReadDeadline conn, .send (registered conn remoteAddr req)] ++
            (dispatch w (registered conn remoteAddr req) req.Method).trace ++
            interleave w.lateSchedule
              (pendingAfter w (registered conn remoteAddr req) req.Method)
              [.send { registered conn remoteAddr req with state := DISCONNECTED },
                .close conn], .returned⟩ := by
        simp only [ClientConnect, hp, hs]
      refine ⟨hc, ?_⟩
      have hpend := messages_pendingAfter w (registered conn remoteAddr req) req.Method
      have hi := filterMap_interleave_right
        (fun e => match e with
          | Event.send client => some client
          | _ => none) w.lateSchedule
        (pendingAfter w (registered conn remoteAddr req) req.Method)
        [.send { registered conn remoteAddr req with state := DISCONNECTED },
          .close conn] hpend
      have htail : messages (interleave w.lateSchedule
          (pendingAfter w (registered conn remoteAddr req) req.Method)
          [.send { registered conn remoteAddr req with state := DISCONNECTED },
            .close conn])
          = [{ registered conn remoteAddr req with state := DISCONNECTED }] := by
        show List.filterMap _ _ = _
        rw [hi]
        simp [List.filterMap_cons]
      rw [hc]
      simp only [messages_append, hd, hhead, htail]
      simp [registered]
    · intro code hs
      have hc : ClientConnect w conn remoteAddr =
          ⟨[.setReadDeadline conn, .send (registered conn remoteAddr req)] ++
            (dispatch w (registered conn remoteAddr req) req.Method).trace,
            .exited code⟩ := by
        simp only [ClientConnect, hp, hs]
      rw [hc]
      refine ⟨rfl, ?_⟩
      simp only [messages_append, hd, hhead]
      simp [registered]
    · intro hm hcert
      obtain ⟨a, ha⟩ := targetAddress_total (registered conn remoteAddr req).url
      simp [dispatch, handlerFor, hm, runHandler, manInTheMiddle, ha, hcert]

/-- C3 at a concrete input: an `OPTIONS` request is bracketed by the two
lifecycle messages. -/
theorem ClientConnect_lifecycle_witness :
    (dispatch optionsWorld (registered 1 "10.0.0.1:5000" optionsRequest)
        optionsRequest.Method).status = .returned ∧
    messages (ClientConnect optionsWorld 1 "10.0.0.1:5000").trace
      = [⟨1, some optionsRequest, optionsRequest.URL, "10.0.0.1:5000", CONNECTED⟩,
         ⟨1, some optionsRequest, optionsRequest.URL, "10.0.0.1:5000", DISCONNECTED⟩] :=
  ⟨rfl, (((ClientConnect_lifecycle optionsWorld 1 "10.0.0.1:5000").2
    optionsRequest rfl).2.2.2.1 rfl).2⟩

/-- C3 fails as stated: the request of `fatalWorld` parses, yet the messages
published are not `CONNECTED` followed by `DISCONNECTED`: the certificate pair
cannot be loaded, the handler ends the process, and `CONNECTED` is the only
message. -/
theorem fatal_exit_publishes_connected_only :
    fatalWorld.request = some sentinelRequest ∧
    (ClientConnect fatalWorld 1 "10.0.0.1:5000").status = .exited 1 ∧
    messages (ClientConnect fatalWorld 1 "10.0.0.1:5000").trace
      = [⟨1, some sentinelRequest, sentinelRequest.URL, "10.0.0.1:5000", CONNECTED⟩] ∧
    messages (ClientConnect fatalWorld 1 "10.0.0.1:5000").trace
      ≠ [⟨1, some sentinelRequest, sentinelRequest.URL, "10.0.0.1:5000", CONNECTED⟩,
         ⟨1, some sentinelRequest, sentinelRequest.URL, "10.0.0.1:5000", DISCONNECTED⟩] := by
  have ha : targetAddress (registered 1 "10.0.0.1:5000" sentinelRequest).url
      = some (bytesOf "example.test:443") :=
    targetAddress_last [slash] (bytesOf "example.test:443") (by decide)
  have hd : dispatch fatalWorld (registered 1 "10.0.0.1:5000" sentinelRequest)
      sentinelRequest.Method = ⟨[.fatal], .exited 1⟩ := by
    have hc : fatalWorld.certOk = false := rfl
    have hm : sentinelRequest.Method = "disablethisCONNECT" := rfl
    rw [hm]
    simp [dispatch, handlerFor, runHandler, manInTheMiddle, ha, hc]
  have hp : parseRequest fatalWorld ⟨1, none, [], "10.0.0.1:5000", CONNECTED⟩
      = some (sentinelRequest, registered 1 "10.0.0.1:5000" sentinelRequest) := rfl
  have hc : ClientConnect fatalWorld 1 "10.0.0.1:5000"
      = ⟨[.setReadDeadline 1, .send (registered 1 "10.0.0.1:5000" sentinelRequest),
          .fatal], .exited 1⟩ := by
    simp only [ClientConnect, hp, hd]
    rfl
  have hm : messages (ClientConnect fatalWorld 1 "10.0.0.1:5000").trace
      = [⟨1, some sentinelRequest, sentinelRequest.URL, "10.0.0.1:5000", CONNECTED⟩] := by
    rw [hc]
    simp [messages, List.filterMap_cons, registered]
  refine ⟨rfl, by rw [hc], hm, ?_⟩
  rw [hm]
  simp

/-- C4, as the code has it: the `switch` calls `Options`, `Get`, `Post` or
`Connect` for the method tokens `OPTIONS`, `GET`, `POST`, `CONNECT`, calls
`manInTheMiddle` for the token `disablethisCONNECT`, and calls no handler for
any other token; it never calls more than one. -/
theorem dispatch_table (w : World) (client : Client) (method : String) :
    (handlersRun "OPTIONS" = [.Options] ∧ handlersRun "GET" = [.Get] ∧
      handlersRun "POST" = [.Post] ∧ handlersRun "CONNECT" = [.Connect] ∧
      handlersRun "disablethisCONNECT" = [.manInTheMiddle]) ∧
    (handlersRun method).length ≤ 1 ∧
    (∀ h, handlersRun method = [h] → dispatch w client method = runHandler w client h) ∧
    (method ≠ "OPTIONS" → method ≠ "GET" → method ≠ "POST" → method ≠ "CONNECT" →
      method ≠ "disablethisCONNECT" →
      handlersRun method = [] ∧ dispatch w client method = ⟨[], .returned⟩) := by
  refine ⟨by decide, ?_, ?_, ?_⟩
  · unfold handlersRun
    cases handlerFor method <;> simp
  · intro h hh
    unfold handlersRun at hh
    unfold dispatch
    cases hf : handlerFor method with
    | none => simp [hf] at hh
    | some g =>
      simp only [hf, Option.toList, List.cons.injEq, and_true] at hh
      subst hh
      rfl
  · intro h1 h2 h3 h4 h5
    have hf : handlerFor method = none := by
      simp [handlerFor, h1, h2, h3, h4, h5]
    simp [handlersRun, dispatch, hf]

/-- C4 at a concrete input: the method token `PUT` runs no handler. -/
theorem dispatch_table_witness :
    handlersRun "PUT" = [] ∧
    dispatch idleWorld (registered 1 "10.0.0.1:5000" putRequest) "PUT"
      = ⟨[], .returned⟩ :=
  (dispatch_table idleWorld (registered 1 "10.0.0.1:5000" putRequest) "PUT").2.2.2
    (by decide) (by decide) (by decide) (by decide) (by decide)

/-- C4 fails as stated: `disablethisCONNECT` is none of `GET`, `POST`,
`CONNECT`, `OPTIONS`, yet the dispatcher runs a handler for it, and that
handler writes to the client. -/
theorem sentinel_runs_handler :
    "disablethisCONNECT" ≠ "GET" ∧ "disablethisCONNECT" ≠ "POST" ∧
    "disablethisCONNECT" ≠ "CONNECT" ∧ "disablethisCONNECT" ≠ "OPTIONS" ∧
    handlersRun "disablethisCONNECT" = [.manInTheMiddle] ∧
    dispatch mitmWorld (registered 1 "10.0.0.1:5000" sentinelRequest) "disablethisCONNECT"
      = manInTheMiddle mitmWorld (registered 1 "10.0.0.1:5000" sentinelRequest) ∧
    writesTo 1 (dispatch mitmWorld (registered 1 "10.0.0.1:5000" sentinelRequest)
      "disablethisCONNECT").trace = [okLine] := by
  have hd : dispatch mitmWorld (registered 1 "10.0.0.1:5000" sentinelRequest)
      "disablethisCONNECT"
      = manInTheMiddle mitmWorld (registered 1 "10.0.0.1:5000" sentinelRequest) := by
    simp [dispatch, handlerFor, runHandler]
  refine ⟨by decide, by decide, by decide, by decide, by decide, hd, ?_⟩
  rw [hd, manInTheMiddle_other_method mitmWorld _ putRequest rfl rfl
    (by decide) (by decide)]
  simp [writesTo, List.filterMap_cons, registered]

end Goxy
